import Mathlib

set_option maxRecDepth 100000

/-!
Shallow embedding of the shape-detection core of the repository
(`src/main.ts`, second `ShapeDetector` class, lines 462-750): binarizer,
8-connected flood-fill region extraction, geometric feature computation and
the ordered classification chain.  JavaScript numbers that hold pixel
coordinates and counts are modelled as `Int`/`Nat`; the floating-point
feature arithmetic (aspect ratio, extent, perimeter, circularity,
confidence) is modelled over `ℝ`.  The wall-clock `processingTimeMs` field
is not modelled (it is the single non-deterministic output and every claim
ignores it).
-/

namespace ShapeDetect

/-- A pixel coordinate, as the source's `{x, y}` records (JS numbers used as
integers). -/
abbrev Pt : Type := ℤ × ℤ

/-- `ImageData`: width, height and the flat RGBA byte array `data`
(`data[(y*width+x)*4 + c]`, modelled as a total function on indices). -/
structure Img where
  width : ℕ
  height : ℕ
  data : ℕ → ℕ

/-- First byte index of the pixel at `p`: the source's
`i = (y * this.width + x) * 4` (only meaningful for in-bounds `p`). -/
def pixIndex (img : Img) (p : Pt) : ℕ :=
  (p.2.toNat * img.width + p.1.toNat) * 4

/-- `initializeBinaryMatrix`'s per-pixel threshold test:
`isForeground = (r < 240 || g < 240 || b < 240)`.  The alpha byte at
`i + 3` is never read. -/
def fgB (img : Img) (p : Pt) : Bool :=
  let i := pixIndex img p
  decide (img.data i < 240) || decide (img.data (i + 1) < 240) ||
    decide (img.data (i + 2) < 240)

/-- The source's bounds test `nx >= 0 && nx < this.width && ny >= 0 && ny < this.height`. -/
def inB (img : Img) (p : Pt) : Prop :=
  0 ≤ p.1 ∧ p.1 < (img.width : ℤ) ∧ 0 ≤ p.2 ∧ p.2 < (img.height : ℤ)

instance (img : Img) (p : Pt) : Decidable (inB img p) := by
  unfold inB; infer_instance

/-- All in-bounds coordinates, as a finite set. -/
def grid (img : Img) : Finset Pt :=
  Finset.Icc (0 : ℤ) ((img.width : ℤ) - 1) ×ˢ Finset.Icc (0 : ℤ) ((img.height : ℤ) - 1)

/-- The set of foreground pixels of the image. -/
def fgFinset (img : Img) : Finset Pt :=
  (grid img).filter fun p => fgB img p = true

/-- The eight neighbour offsets, in the source's order
(`dx = [-1,0,1,-1,1,-1,0,1]`, `dy = [-1,-1,-1,0,0,1,1,1]`). -/
def offsets : List Pt :=
  [(-1, -1), (0, -1), (1, -1), (-1, 0), (1, 0), (-1, 1), (0, 1), (1, 1)]

/-- One pass over a list of offsets from pixel `p`: each in-bounds,
foreground, unvisited neighbour is marked visited and pushed on the queue
(the body of `floodFill`'s `for (let i = 0; i < 8; i++)` loop). -/
def stepFold (img : Img) (p : Pt) : List Pt → List Pt × Finset Pt → List Pt × Finset Pt
  | [], s => s
  | d :: ds, s =>
    let n : Pt := (p.1 + d.1, p.2 + d.2)
    stepFold img p ds
      (if inB img n ∧ fgB img n = true ∧ n ∉ s.2 then (s.1 ++ [n], insert n s.2) else s)

/-- The worklist loop of `floodFill`: dequeue from the front (`queue.shift()`),
append the pixel to the region, enqueue its fresh neighbours.  `fuel` is an
upper bound on the number of iterations, an artefact of the embedding; the
source loop terminates because every enqueue marks a new pixel visited. -/
def floodLoop (img : Img) : ℕ → List Pt → Finset Pt → List Pt → List Pt × Finset Pt
  | 0, _, v, px => (px, v)
  | _ + 1, [], v, px => (px, v)
  | fuel + 1, p :: rest, v, px =>
    let s := stepFold img p offsets (rest, v)
    floodLoop img fuel s.1 s.2 (px ++ [p])

/-- `floodFill(startX, startY)`: seed the queue with the start pixel, mark it
visited, run the worklist loop.  Returns the region's pixel list in discovery
order together with the updated visited set. -/
def floodFill (img : Img) (c : Pt) (v : Finset Pt) : List Pt × Finset Pt :=
  floodLoop img (img.width * img.height + 1) [c] (insert c v) []

/-- The raster scan of `detectShapes` (`y` outer, `x` inner), as the list of
scanned coordinates. -/
def rasterCoords (img : Img) : List Pt :=
  (List.range img.height).flatMap fun (y : ℕ) =>
    (List.range img.width).map fun (x : ℕ) => ((x : ℤ), (y : ℤ))

/-- The scan loop of `detectShapes`, collecting every flood-filled region (a
foreground pixel not yet visited starts a fill).  The source analyzes each
sufficiently large region immediately inside this loop and keeps only the
shape; since `analyzeShape` is pure and never touches the visited state,
collecting all regions here and filtering/analyzing them afterwards
(`analyzedRegions`, `detectShapes`) yields the same output in the same
order. -/
def scanLoop (img : Img) : List Pt → Finset Pt → List (List Pt) → Finset Pt × List (List Pt)
  | [], v, rs => (v, rs)
  | c :: cs, v, rs =>
    if fgB img c = true ∧ c ∉ v then
      let f := floodFill img c v
      scanLoop img cs f.2 (rs ++ [f.1])
    else scanLoop img cs v rs

/-- All regions extracted from the image, in raster-scan discovery order. -/
def extractRegions (img : Img) : List (List Pt) :=
  (scanLoop img (rasterCoords img) ∅ []).2

/-- `minShapeSize` of `detectShapes`. -/
def minShapeSize : ℕ := 20

/-- The regions that pass the `shapePixels.length > minShapeSize` filter and
are handed to `analyzeShape`. -/
def analyzedRegions (img : Img) : List (List Pt) :=
  (extractRegions img).filter fun r => minShapeSize < r.length

/-! ### Feature calculator and classifier (`analyzeShape`) -/

/-- The source's `ShapeType` union (`main.ts` line 1). -/
inductive ShapeType where
  | circle | square | rectangle | triangle | pentagon
  | person | face | upper_body | furniture | object
  deriving DecidableEq

/-- `BoundingBox` of the detection core (integer pixel coordinates). -/
structure BoundingBox where
  x : ℤ
  y : ℤ
  width : ℤ
  height : ℤ
  deriving DecidableEq

/-- A `{x, y}` centre point (real-valued: it is an arithmetic mean). -/
structure CenterPt where
  x : ℝ
  y : ℝ

/-- `DetectedShape` as returned by `analyzeShape` (`main.ts` lines 476-482). -/
structure DetectedShape where
  type : ShapeType
  confidence : ℝ
  boundingBox : BoundingBox
  center : CenterPt
  area : ℕ

/-- `minX`: fold of `Math.min` over the pixels' x coordinates, seeded with
`this.width` as in the source. -/
def minXF (img : Img) (px : List Pt) : ℤ :=
  px.foldl (fun a p => min a p.1) (img.width : ℤ)

/-- `minY`, seeded with `this.height`. -/
def minYF (img : Img) (px : List Pt) : ℤ :=
  px.foldl (fun a p => min a p.2) (img.height : ℤ)

/-- `maxX`, seeded with `0`. -/
def maxXF (px : List Pt) : ℤ :=
  px.foldl (fun a p => max a p.1) 0

/-- `maxY`, seeded with `0`. -/
def maxYF (px : List Pt) : ℤ :=
  px.foldl (fun a p => max a p.2) 0

/-- `sumX`. -/
def sumXF (px : List Pt) : ℤ :=
  px.foldl (fun a p => a + p.1) 0

/-- `sumY`. -/
def sumYF (px : List Pt) : ℤ :=
  px.foldl (fun a p => a + p.2) 0

/-- `width = maxX - minX + 1`. -/
def bbW (img : Img) (px : List Pt) : ℤ := maxXF px - minXF img px + 1

/-- `height = maxY - minY + 1`. -/
def bbH (img : Img) (px : List Pt) : ℤ := maxYF px - minYF img px + 1

/-- `aspectRatio = width / Math.max(1, height)`. -/
noncomputable def aspectRatio (img : Img) (px : List Pt) : ℝ :=
  (bbW img px : ℝ) / max 1 (bbH img px : ℝ)

/-- `extent = area / (width * height)`. -/
noncomputable def extent (img : Img) (px : List Pt) : ℝ :=
  (px.length : ℝ) / ((bbW img px : ℝ) * (bbH img px : ℝ))

/-- `Math.sqrt(dx*dx + dy*dy)` between two pixels. -/
noncomputable def pixDist (p q : Pt) : ℝ :=
  let dx : ℝ := ((q.1 - p.1 : ℤ) : ℝ)
  let dy : ℝ := ((q.2 - p.2 : ℤ) : ℝ)
  Real.sqrt (dx * dx + dy * dy)

/-- The perimeter loop: `for i in 0..n-1`, `next = (i+1) % n`, summing the
Euclidean distance from `pixels[i]` to `pixels[next]`. -/
noncomputable def perimeter (px : List Pt) : ℝ :=
  ((List.range px.length).map fun i =>
    pixDist (px.getD i (0, 0)) (px.getD ((i + 1) % px.length) (0, 0))).sum

/-- `circularity = perimeter > 0 ? (4 * Math.PI * area) / (perimeter * perimeter) : 0`. -/
noncomputable def circularity (px : List Pt) : ℝ :=
  if 0 < perimeter px then 4 * Real.pi * (px.length : ℝ) / (perimeter px * perimeter px)
  else 0

/-- The classification chain of `analyzeShape` (`main.ts` lines 701-720): a
strict ordered if/else over (circularity, aspectRatio, extent), first match
wins; returns the type and the pre-penalty confidence. -/
noncomputable def classify (circ ar ext : ℝ) : ShapeType × ℝ :=
  if 0.85 < circ then (ShapeType.circle, min 0.99 circ)
  else if |ar - 1| < 0.2 ∧ 0.7 < ext then (ShapeType.square, 0.85 * ext)
  else if 0.6 < ext then (ShapeType.rectangle, 0.8 * ext)
  else if ext < 0.6 then (ShapeType.triangle, 0.7 * (1 - ext))
  else (ShapeType.pentagon, 0.6)

/-- `classify` applied to the features of a region. -/
noncomputable def classifyOf (img : Img) (px : List Pt) : ShapeType × ℝ :=
  classify (circularity px) (aspectRatio img px) (extent img px)

/-- `sizePenalty = Math.min(1, Math.log10(area / 100) / 2 + 0.8)`. -/
noncomputable def sizePenalty (area : ℕ) : ℝ :=
  min 1 (Real.logb 10 ((area : ℝ) / 100) / 2 + 0.8)

/-- The final confidence: the branch confidence times the size penalty,
clamped by `Math.max(0.1, Math.min(0.99, confidence))`. -/
noncomputable def clampedConf (img : Img) (px : List Pt) : ℝ :=
  max 0.1 (min 0.99 ((classifyOf img px).2 * sizePenalty px.length))

/-- `analyzeShape`: `null` for fewer than 10 pixels, `null` when the clamped
confidence is below 0.6, otherwise the classified shape record. -/
noncomputable def analyzeShape (img : Img) (px : List Pt) : Option DetectedShape :=
  if px.length < 10 then none
  else if clampedConf img px < 0.6 then none
  else
    some
      { type := (classifyOf img px).1
        confidence := clampedConf img px
        boundingBox :=
          { x := minXF img px, y := minYF img px, width := bbW img px, height := bbH img px }
        center := { x := (sumXF px : ℝ) / px.length, y := (sumYF px : ℝ) / px.length }
        area := px.length }

/-! ### Pipeline output -/

/-- `DetectionResult` (without the wall-clock `processingTimeMs`). -/
structure DetectionResult where
  shapes : List DetectedShape
  width : ℕ
  height : ℕ

/-- `detectShapes`: binarize, extract regions in raster order, keep those
with more than `minShapeSize` pixels, analyze each and collect the non-null
results. -/
noncomputable def detectShapes (img : Img) : DetectionResult :=
  { shapes := (analyzedRegions img).filterMap (analyzeShape img)
    width := img.width
    height := img.height }

/-! ### The detector object's mutable fields

`ShapeDetector` keeps `imageData`, `width`, `height`, `data`,
`binaryMatrix` and `visited` as instance fields; `detectShapes` overwrites
all of them from its argument before the scan reads them. -/

/-- The mutable fields of the second `ShapeDetector` class that
`detectShapes` touches. -/
structure DetectorState where
  width : ℕ
  height : ℕ
  data : ℕ → ℕ
  binaryMatrix : Pt → Bool
  visited : Finset Pt

/-- `detectShapes` as a method: it assigns `width`, `height` and `data` from
the argument, rebuilds `binaryMatrix` and resets `visited`
(`initializeBinaryMatrix` / `initializeVisited`), then runs the scan,
returning the mutated state and the result. -/
noncomputable def detectShapesM (s : DetectorState) (imageData : Img) :
    DetectorState × DetectionResult :=
  let s1 : DetectorState :=
    { s with
      width := imageData.width
      height := imageData.height
      data := imageData.data
      binaryMatrix := fun p => fgB imageData p
      visited := ∅ }
  let run := scanLoop imageData (rasterCoords imageData) s1.visited []
  ({ s1 with visited := run.1 }, detectShapes imageData)

/-! ### Spec-side formulations

These two definitions follow the specification's words (perimeter as a sum
of consecutive Euclidean distances with wrap-around, circularity as the
isoperimetric quotient), to be compared with the loop translations above. -/

/-- Spec: "sum of Euclidean distances between consecutive pixels in the
region's discovery order, wrapping from last to first". -/
noncomputable def perimeterSpec (px : List Pt) : ℝ :=
  ∑ i ∈ Finset.range px.length,
    pixDist (px.getD i (0, 0)) (px.getD ((i + 1) % px.length) (0, 0))

/-- Spec: "`4π·area / perimeter²` when perimeter > 0, else 0". -/
noncomputable def circularitySpec (px : List Pt) : ℝ :=
  if 0 < perimeterSpec px then 4 * Real.pi * (px.length : ℝ) / (perimeterSpec px) ^ 2
  else 0

/-- The union of a region list's pixel sets. -/
def unionOf (rs : List (List Pt)) : Finset Pt :=
  rs.foldr (fun r acc => r.toFinset ∪ acc) ∅

/-! ### Concrete images used as witnesses and counterexamples -/

/-- A 10×10 image that is entirely black: one 100-pixel region. -/
def img10 : Img := ⟨10, 10, fun _ => 0⟩

/-- The discovery order in which `floodFill` visits the 100 pixels of
`img10` (breadth-first from `(0,0)`, neighbours in the source's offset
order). -/
def reg10 : List Pt :=
  [(0, 0), (1, 0), (0, 1), (1, 1), (2, 0), (2, 1), (0, 2), (1, 2), (2, 2), (3, 0),
   (3, 1), (3, 2), (0, 3), (1, 3), (2, 3), (3, 3), (4, 0), (4, 1), (4, 2), (4, 3),
   (0, 4), (1, 4), (2, 4), (3, 4), (4, 4), (5, 0), (5, 1), (5, 2), (5, 3), (5, 4),
   (0, 5), (1, 5), (2, 5), (3, 5), (4, 5), (5, 5), (6, 0), (6, 1), (6, 2), (6, 3),
   (6, 4), (6, 5), (0, 6), (1, 6), (2, 6), (3, 6), (4, 6), (5, 6), (6, 6), (7, 0),
   (7, 1), (7, 2), (7, 3), (7, 4), (7, 5), (7, 6), (0, 7), (1, 7), (2, 7), (3, 7),
   (4, 7), (5, 7), (6, 7), (7, 7), (8, 0), (8, 1), (8, 2), (8, 3), (8, 4), (8, 5),
   (8, 6), (8, 7), (0, 8), (1, 8), (2, 8), (3, 8), (4, 8), (5, 8), (6, 8), (7, 8),
   (8, 8), (9, 0), (9, 1), (9, 2), (9, 3), (9, 4), (9, 5), (9, 6), (9, 7), (9, 8),
   (0, 9), (1, 9), (2, 9), (3, 9), (4, 9), (5, 9), (6, 9), (7, 9), (8, 9), (9, 9)]

/-- The shape `detectShapes` emits for `img10`: the 10×10 bounding box is
square with extent 1, so the square branch fires (confidence `0.85`), and
the size penalty at area 100 is `min 1 (log10 1 / 2 + 0.8) = 0.8`. -/
noncomputable def wShape : DetectedShape :=
  { type := ShapeType.square
    confidence := 0.68
    boundingBox := { x := 0, y := 0, width := 10, height := 10 }
    center := { x := 4.5, y := 4.5 }
    area := 100 }

/-- A 10×2 image that is entirely black: one region of exactly 20 pixels,
sitting on the `length > minShapeSize` boundary. -/
def img20 : Img := ⟨10, 2, fun _ => 0⟩

/-- The 200×200 image of the spec's first concrete scenario: white
everywhere except a filled black disk of radius 50 centred at (100,100)
(alpha byte 255 everywhere). -/
def diskImg : Img where
  width := 200
  height := 200
  data := fun i =>
    let p := i / 4
    let x : ℤ := (p % 200 : ℕ)
    let y : ℤ := (p / 200 : ℕ)
    if i % 4 = 3 then 255
    else if (x - 100) ^ 2 + (y - 100) ^ 2 ≤ 2500 then 0
    else 255

/-! ## Basic lemmas -/

theorem mem_grid {img : Img} {p : Pt} : p ∈ grid img ↔ inB img p := by
  cases p with
  | mk x y =>
    simp only [grid, inB, Finset.mem_product, Finset.mem_Icc]
    omega

theorem grid_card (img : Img) : (grid img).card = img.width * img.height := by
  simp only [grid, Finset.card_product, Int.card_Icc]
  have h1 : ((img.width : ℤ) - 1 + 1 - 0).toNat = img.width := by omega
  have h2 : ((img.height : ℤ) - 1 + 1 - 0).toNat = img.height := by omega
  rw [h1, h2]

theorem mem_rasterCoords {img : Img} {p : Pt} :
    p ∈ rasterCoords img ↔ p ∈ grid img := by
  obtain ⟨x, y⟩ := p
  rw [mem_grid]
  constructor
  · intro h
    obtain ⟨yy, hyy, h2⟩ := List.mem_flatMap.mp h
    obtain ⟨xx, hxx, h3⟩ := List.mem_map.mp h2
    rw [List.mem_range] at hyy hxx
    injection h3 with h4 h5
    show 0 ≤ x ∧ x < (img.width : ℤ) ∧ 0 ≤ y ∧ y < (img.height : ℤ)
    omega
  · intro h
    simp only [inB] at h
    refine List.mem_flatMap.mpr ⟨y.toNat, List.mem_range.mpr (by omega), ?_⟩
    refine List.mem_map.mpr ⟨x.toNat, List.mem_range.mpr (by omega), ?_⟩
    show ((x.toNat : ℤ), (y.toNat : ℤ)) = (x, y)
    rw [Prod.mk.injEq]
    exact ⟨by omega, by omega⟩

/-! ## Flood-fill invariants -/

/-- What one neighbour pass does: it appends some list `N` of fresh pixels to
the queue and marks exactly those visited; every appended pixel is in-bounds,
foreground and previously unvisited, and the count of unvisited grid cells
drops by `N.length`. -/
theorem stepFold_spec (img : Img) (p : Pt) :
    ∀ (ds q : List Pt) (v : Finset Pt),
    ∃ N : List Pt,
      stepFold img p ds (q, v) = (q ++ N, v ∪ N.toFinset) ∧
      N.Nodup ∧
      (∀ n ∈ N, n ∈ grid img ∧ fgB img n = true ∧ n ∉ v) ∧
      (grid img \ (v ∪ N.toFinset)).card + N.length = (grid img \ v).card := by
  intro ds
  induction ds with
  | nil =>
    intro q v
    exact ⟨[], by simp [stepFold], by simp, by simp, by simp⟩
  | cons d ds ih =>
    intro q v
    by_cases hc : inB img (p.1 + d.1, p.2 + d.2) ∧
        fgB img (p.1 + d.1, p.2 + d.2) = true ∧ (p.1 + d.1, p.2 + d.2) ∉ v
    · obtain ⟨N', hEq, hNd, hProps, hCard⟩ :=
        ih (q ++ [(p.1 + d.1, p.2 + d.2)]) (insert (p.1 + d.1, p.2 + d.2) v)
      have hgridn : (p.1 + d.1, p.2 + d.2) ∈ grid img := mem_grid.mpr hc.1
      have hstep : stepFold img p (d :: ds) (q, v) =
          stepFold img p ds
            (q ++ [(p.1 + d.1, p.2 + d.2)], insert (p.1 + d.1, p.2 + d.2) v) := by
        simp only [stepFold]
        rw [if_pos hc]
      refine ⟨(p.1 + d.1, p.2 + d.2) :: N', ?_, ?_, ?_, ?_⟩
      · rw [hstep, hEq]
        refine Prod.ext ?_ ?_
        · simp
        · show insert (p.1 + d.1, p.2 + d.2) v ∪ N'.toFinset =
            v ∪ ((p.1 + d.1, p.2 + d.2) :: N').toFinset
          ext a
          simp only [List.toFinset_cons, Finset.mem_union, Finset.mem_insert]
          tauto
      · refine List.nodup_cons.mpr ⟨fun h => ?_, hNd⟩
        exact (hProps _ h).2.2 (Finset.mem_insert_self _ _)
      · intro n hn
        rcases List.mem_cons.mp hn with rfl | hn'
        · exact ⟨hgridn, hc.2.1, hc.2.2⟩
        · obtain ⟨h1, h2, h3⟩ := hProps n hn'
          exact ⟨h1, h2, fun hv => h3 (Finset.mem_insert_of_mem hv)⟩
      · have hset : v ∪ ((p.1 + d.1, p.2 + d.2) :: N').toFinset =
            insert (p.1 + d.1, p.2 + d.2) v ∪ N'.toFinset := by
          ext a
          simp only [List.toFinset_cons, Finset.mem_union, Finset.mem_insert]
          tauto
        have hone : (grid img \ insert (p.1 + d.1, p.2 + d.2) v).card + 1 =
            (grid img \ v).card := by
          rw [Finset.sdiff_insert]
          exact Finset.card_erase_add_one (Finset.mem_sdiff.mpr ⟨hgridn, hc.2.2⟩)
        rw [hset]
        simp only [List.length_cons]
        omega
    · obtain ⟨N, hEq, hNd, hProps, hCard⟩ := ih q v
      have hstep : stepFold img p (d :: ds) (q, v) = stepFold img p ds (q, v) := by
        simp only [stepFold]
        rw [if_neg hc]
      exact ⟨N, by rw [hstep, hEq], hNd, hProps, hCard⟩

/-- The worklist loop, run with enough fuel, pops every queued pixel into the
region list `L`, visits exactly the pixels of `L`, and only ever visits
in-bounds foreground pixels that were unvisited (or already queued). -/
theorem floodLoop_spec (img : Img) :
    ∀ (fuel : ℕ) (q : List Pt) (v : Finset Pt) (px : List Pt),
    q.length + (grid img \ v).card ≤ fuel →
    (∀ p ∈ q, p ∈ v) →
    (∀ p ∈ q, p ∈ grid img ∧ fgB img p = true) →
    (px ++ q).Nodup →
    (∀ p ∈ px, p ∈ v) →
    ∃ L : List Pt,
      floodLoop img fuel q v px = (px ++ L, v ∪ L.toFinset) ∧
      (px ++ L).Nodup ∧
      (∀ p ∈ L, p ∈ grid img ∧ fgB img p = true) ∧
      (∀ p ∈ L, p ∈ v → p ∈ q) ∧
      (∀ p ∈ q, p ∈ L) := by
  intro fuel
  induction fuel with
  | zero =>
    intro q v px hfuel hqv hqg hnd hpv
    have hq : q = [] := List.eq_nil_of_length_eq_zero (by omega)
    subst hq
    exact ⟨[], by simp [floodLoop], by simpa using hnd, by simp, by simp, by simp⟩
  | succ fuel ih =>
    intro q v px hfuel hqv hqg hnd hpv
    match q, hfuel, hqv, hqg, hnd with
    | [], hfuel, hqv, hqg, hnd =>
      exact ⟨[], by simp [floodLoop], by simpa using hnd, by simp, by simp, by simp⟩
    | p :: rest, hfuel, hqv, hqg, hnd =>
      obtain ⟨N, hsEq, hsNd, hsProps, hsCard⟩ := stepFold_spec img p offsets rest v
      have hunfold : floodLoop img (fuel + 1) (p :: rest) v px =
          floodLoop img fuel (rest ++ N) (v ∪ N.toFinset) (px ++ [p]) := by
        show floodLoop img fuel (stepFold img p offsets (rest, v)).1
            (stepFold img p offsets (rest, v)).2 (px ++ [p]) =
          floodLoop img fuel (rest ++ N) (v ∪ N.toFinset) (px ++ [p])
        rw [hsEq]
      have hpv' : p ∈ v := hqv p (List.mem_cons_self p rest)
      have hrestv : ∀ m ∈ rest, m ∈ v := fun m hm => hqv m (List.mem_cons_of_mem p hm)
      have hfuel' : (rest ++ N).length + (grid img \ (v ∪ N.toFinset)).card ≤ fuel := by
        simp only [List.length_append]
        simp only [List.length_cons] at hfuel
        omega
      have hqv' : ∀ m ∈ rest ++ N, m ∈ v ∪ N.toFinset := by
        intro m hm
        rcases List.mem_append.mp hm with hm' | hm'
        · exact Finset.mem_union_left _ (hrestv m hm')
        · exact Finset.mem_union_right _ (List.mem_toFinset.mpr hm')
      have hqg' : ∀ m ∈ rest ++ N, m ∈ grid img ∧ fgB img m = true := by
        intro m hm
        rcases List.mem_append.mp hm with hm' | hm'
        · exact hqg m (List.mem_cons_of_mem p hm')
        · exact ⟨(hsProps m hm').1, (hsProps m hm').2.1⟩
      have hnd' : ((px ++ [p]) ++ (rest ++ N)).Nodup := by
        have hdisj : (px ++ p :: rest).Disjoint N := by
          intro a ha haN
          have hav : a ∈ v := by
            rcases List.mem_append.mp ha with h' | h'
            · exact hpv a h'
            · exact hqv a h'
          exact (hsProps a haN).2.2 hav
        have h1 : ((px ++ p :: rest) ++ N).Nodup := hnd.append hsNd hdisj
        have h2 : (px ++ [p]) ++ (rest ++ N) = (px ++ p :: rest) ++ N := by
          simp
        rw [h2]
        exact h1
      have hpxv' : ∀ m ∈ px ++ [p], m ∈ v ∪ N.toFinset := by
        intro m hm
        rcases List.mem_append.mp hm with h' | h'
        · exact Finset.mem_union_left _ (hpv m h')
        · rcases List.mem_singleton.mp h' with rfl
          exact Finset.mem_union_left _ hpv'
      obtain ⟨L', hEq', hNd', hProps', hBack', hAll'⟩ :=
        ih (rest ++ N) (v ∪ N.toFinset) (px ++ [p]) hfuel' hqv' hqg' hnd' hpxv'
      have hNL : ∀ m ∈ N, m ∈ L' := fun m hm =>
        hAll' m (List.mem_append.mpr (Or.inr hm))
      refine ⟨p :: L', ?_, ?_, ?_, ?_, ?_⟩
      · rw [hunfold, hEq']
        refine Prod.ext ?_ ?_
        · simp
        · show (v ∪ N.toFinset) ∪ L'.toFinset = v ∪ (p :: L').toFinset
          ext a
          simp only [Finset.mem_union, List.toFinset_cons, Finset.mem_insert,
            List.mem_toFinset]
          constructor
          · rintro ((h' | h') | h')
            · exact Or.inl h'
            · exact Or.inr (Or.inr (hNL a h'))
            · exact Or.inr (Or.inr h')
          · rintro (h' | rfl | h')
            · exact Or.inl (Or.inl h')
            · exact Or.inl (Or.inl hpv')
            · exact Or.inr h'
      · have h2 : px ++ p :: L' = (px ++ [p]) ++ L' := by simp
        rw [h2]
        exact hNd'
      · intro m hm
        rcases List.mem_cons.mp hm with rfl | hm'
        · exact hqg m (List.mem_cons_self m rest)
        · exact hProps' m hm'
      · intro m hm hmv
        rcases List.mem_cons.mp hm with rfl | hm'
        · exact List.mem_cons_self m rest
        · have : m ∈ rest ++ N := hBack' m hm' (Finset.mem_union_left _ hmv)
          rcases List.mem_append.mp this with h' | h'
          · exact List.mem_cons_of_mem p h'
          · exact absurd hmv (hsProps m h').2.2
      · intro m hm
        rcases List.mem_cons.mp hm with rfl | hm'
        · exact List.mem_cons_self m L'
        · exact List.mem_cons_of_mem p (hAll' m (List.mem_append.mpr (Or.inl hm')))

/-- `floodFill` from an in-bounds, foreground, unvisited start pixel returns
a duplicate-free list of in-bounds foreground pixels that were all unvisited,
containing the start pixel, and marks exactly those pixels visited. -/
theorem floodFill_spec (img : Img) (c : Pt) (v : Finset Pt)
    (hg : c ∈ grid img) (hf : fgB img c = true) (hv : c ∉ v) :
    ∃ L : List Pt,
      floodFill img c v = (L, v ∪ L.toFinset) ∧
      L.Nodup ∧
      (∀ p ∈ L, p ∈ grid img ∧ fgB img p = true) ∧
      (∀ p ∈ L, p ∉ v) ∧
      c ∈ L := by
  have hfuel : [c].length + (grid img \ insert c v).card ≤ img.width * img.height + 1 := by
    have h1 : (grid img \ insert c v).card ≤ (grid img).card := Finset.card_le_card
      (Finset.sdiff_subset)
    rw [grid_card] at h1
    simp only [List.length_singleton]
    omega
  obtain ⟨L, hEq, hNd, hProps, hBack, hAll⟩ :=
    floodLoop_spec img (img.width * img.height + 1) [c] (insert c v) []
      hfuel
      (fun p hp => by rcases List.mem_singleton.mp hp with rfl; exact Finset.mem_insert_self _ _)
      (fun p hp => by rcases List.mem_singleton.mp hp with rfl; exact ⟨hg, hf⟩)
      (by simp)
      (by simp)
  have hcL : c ∈ L := hAll c (List.mem_singleton.mpr rfl)
  refine ⟨L, ?_, by simpa using hNd, hProps, ?_, hcL⟩
  · rw [floodFill, hEq]
    refine Prod.ext (by simp) ?_
    show insert c v ∪ L.toFinset = v ∪ L.toFinset
    ext a
    simp only [Finset.mem_union, Finset.mem_insert, List.mem_toFinset]
    constructor
    · rintro ((rfl | h') | h')
      · exact Or.inr hcL
      · exact Or.inl h'
      · exact Or.inr h'
    · rintro (h' | h')
      · exact Or.inl (Or.inr h')
      · exact Or.inr h'
  · intro p hp hpv
    have : p ∈ [c] := hBack p hp (Finset.mem_insert_of_mem hpv)
    rcases List.mem_singleton.mp this with rfl
    exact hv hpv

theorem mem_unionOf {rs : List (List Pt)} {p : Pt} :
    p ∈ unionOf rs ↔ ∃ r ∈ rs, p ∈ r := by
  induction rs with
  | nil => simp [unionOf]
  | cons r rs ih =>
    simp only [unionOf, List.foldr_cons, Finset.mem_union, List.mem_toFinset]
    constructor
    · rintro (h | h)
      · exact ⟨r, List.mem_cons_self r rs, h⟩
      · obtain ⟨s, hs, hp⟩ := ih.mp h
        exact ⟨s, List.mem_cons_of_mem r hs, hp⟩
    · rintro ⟨s, hs, hp⟩
      rcases List.mem_cons.mp hs with rfl | hs'
      · exact Or.inl hp
      · exact Or.inr (ih.mpr ⟨s, hs', hp⟩)

theorem unionOf_append (rs : List (List Pt)) (L : List Pt) :
    unionOf (rs ++ [L]) = unionOf rs ∪ L.toFinset := by
  induction rs with
  | nil => simp [unionOf]
  | cons r rs ih =>
    simp only [unionOf, List.cons_append, List.foldr_cons] at ih ⊢
    rw [ih, Finset.union_assoc]

/-- The raster scan preserves and extends the extraction invariant: all
collected regions are duplicate-free lists of in-bounds foreground pixels,
pairwise disjoint; the visited set is exactly their union; every scanned
foreground pixel ends up visited; and the visited set only grows. -/
theorem scanLoop_spec (img : Img) :
    ∀ (cs : List Pt) (v : Finset Pt) (rs : List (List Pt)),
    (∀ c ∈ cs, c ∈ grid img) →
    (∀ r ∈ rs, r.Nodup) →
    (∀ r ∈ rs, ∀ p ∈ r, p ∈ grid img ∧ fgB img p = true) →
    rs.Pairwise (fun a b => ∀ p ∈ a, p ∉ b) →
    v = unionOf rs →
    (∀ r ∈ (scanLoop img cs v rs).2, r.Nodup) ∧
    (∀ r ∈ (scanLoop img cs v rs).2, ∀ p ∈ r, p ∈ grid img ∧ fgB img p = true) ∧
    (scanLoop img cs v rs).2.Pairwise (fun a b => ∀ p ∈ a, p ∉ b) ∧
    (scanLoop img cs v rs).1 = unionOf (scanLoop img cs v rs).2 ∧
    (∀ c ∈ cs, fgB img c = true → c ∈ (scanLoop img cs v rs).1) ∧
    v ⊆ (scanLoop img cs v rs).1 := by
  intro cs
  induction cs with
  | nil =>
    intro v rs hcs hnd hgp hpw hv
    simp only [scanLoop]
    exact ⟨hnd, hgp, hpw, hv, by simp, Finset.Subset.refl v⟩
  | cons c cs ih =>
    intro v rs hcs hnd hgp hpw hv
    by_cases hc : fgB img c = true ∧ c ∉ v
    · obtain ⟨L, hEq, hNdL, hPropsL, hFreshL, hcL⟩ :=
        floodFill_spec img c v (hcs c (List.mem_cons_self c cs)) hc.1 hc.2
      have hstep : scanLoop img (c :: cs) v rs =
          scanLoop img cs (v ∪ L.toFinset) (rs ++ [L]) := by
        simp only [scanLoop]
        rw [if_pos hc, hEq]
      have hnd' : ∀ r ∈ rs ++ [L], r.Nodup := by
        intro r hr
        rcases List.mem_append.mp hr with h' | h'
        · exact hnd r h'
        · rcases List.mem_singleton.mp h' with rfl
          exact hNdL
      have hgp' : ∀ r ∈ rs ++ [L], ∀ p ∈ r, p ∈ grid img ∧ fgB img p = true := by
        intro r hr
        rcases List.mem_append.mp hr with h' | h'
        · exact hgp r h'
        · rcases List.mem_singleton.mp h' with rfl
          exact hPropsL
      have hpw' : (rs ++ [L]).Pairwise (fun a b => ∀ p ∈ a, p ∉ b) := by
        rw [List.pairwise_append]
        refine ⟨hpw, List.pairwise_singleton _ _, ?_⟩
        intro a ha b hb
        rcases List.mem_singleton.mp hb with rfl
        intro p hpa hpb
        have hpv : p ∈ v := hv ▸ mem_unionOf.mpr ⟨a, ha, hpa⟩
        exact hFreshL p hpb hpv
      have hv' : v ∪ L.toFinset = unionOf (rs ++ [L]) := by
        rw [unionOf_append, hv]
      obtain ⟨k1, k2, k3, k4, k5, k6⟩ := ih (v ∪ L.toFinset) (rs ++ [L])
        (fun a ha => hcs a (List.mem_cons_of_mem c ha)) hnd' hgp' hpw' hv'
      rw [hstep]
      refine ⟨k1, k2, k3, k4, ?_, ?_⟩
      · intro a ha hfa
        rcases List.mem_cons.mp ha with rfl | ha'
        · exact k6 (Finset.mem_union_right _ (List.mem_toFinset.mpr hcL))
        · exact k5 a ha' hfa
      · exact fun a ha => k6 (Finset.mem_union_left _ ha)
    · have hstep : scanLoop img (c :: cs) v rs = scanLoop img cs v rs := by
        simp only [scanLoop]
        rw [if_neg hc]
      obtain ⟨k1, k2, k3, k4, k5, k6⟩ := ih v rs
        (fun a ha => hcs a (List.mem_cons_of_mem c ha)) hnd hgp hpw hv
      rw [hstep]
      refine ⟨k1, k2, k3, k4, ?_, k6⟩
      intro a ha hfa
      rcases List.mem_cons.mp ha with rfl | ha'
      · have hav : a ∈ v := by
          by_contra hav
          exact hc ⟨hfa, hav⟩
        exact k6 hav
      · exact k5 a ha' hfa

/-- The packaged extraction invariant: the extracted regions are
duplicate-free, pairwise disjoint, consist of in-bounds foreground pixels,
and their union is exactly the set of foreground pixels. -/
theorem extract_invariant (img : Img) :
    (∀ r ∈ extractRegions img, r.Nodup) ∧
    (∀ r ∈ extractRegions img, ∀ p ∈ r, p ∈ grid img ∧ fgB img p = true) ∧
    (extractRegions img).Pairwise (fun a b => ∀ p ∈ a, p ∉ b) ∧
    unionOf (extractRegions img) = fgFinset img := by
  obtain ⟨h1, h2, h3, h4, h5, h6⟩ := scanLoop_spec img (rasterCoords img) ∅ []
    (fun c hc => mem_rasterCoords.mp hc) (by simp) (by simp) (by simp)
    (by simp [unionOf])
  refine ⟨h1, h2, h3, ?_⟩
  apply Finset.Subset.antisymm
  · intro p hp
    obtain ⟨r, hr, hpr⟩ := mem_unionOf.mp hp
    obtain ⟨hg, hf⟩ := h2 r hr p hpr
    exact Finset.mem_filter.mpr ⟨hg, hf⟩
  · intro p hp
    obtain ⟨hg, hf⟩ := Finset.mem_filter.mp hp
    have hmem : p ∈ (scanLoop img (rasterCoords img) ∅ []).1 :=
      h5 p (mem_rasterCoords.mpr hg) hf
    rw [h4] at hmem
    exact hmem

theorem sum_lengths_of_partition :
    ∀ rs : List (List Pt), (∀ r ∈ rs, r.Nodup) →
    rs.Pairwise (fun a b => ∀ p ∈ a, p ∉ b) →
    (rs.map List.length).sum = (unionOf rs).card := by
  intro rs
  induction rs with
  | nil => simp [unionOf]
  | cons r rs ih =>
    intro hnd hpw
    have hdisj : Disjoint r.toFinset (unionOf rs) := by
      rw [Finset.disjoint_left]
      intro a ha hu
      obtain ⟨s, hs, has⟩ := mem_unionOf.mp hu
      exact (List.pairwise_cons.mp hpw).1 s hs a (List.mem_toFinset.mp ha) has
    have hstep : unionOf (r :: rs) = r.toFinset ∪ unionOf rs := rfl
    rw [List.map_cons, List.sum_cons, hstep, Finset.card_union_of_disjoint hdisj,
      List.toFinset_card_of_nodup (hnd r (List.mem_cons_self r rs)),
      ih (fun s hs => hnd s (List.mem_cons_of_mem r hs)) (List.pairwise_cons.mp hpw).2]

theorem countP_eq_one_of_pairwise_disjoint :
    ∀ (rs : List (List Pt)) (p : Pt), rs.Pairwise (fun a b => ∀ q ∈ a, q ∉ b) →
    (∃ r ∈ rs, p ∈ r) → rs.countP (fun r => decide (p ∈ r)) = 1 := by
  intro rs
  induction rs with
  | nil =>
    intro p _ hex
    simp at hex
  | cons r rs ih =>
    intro p hpw hex
    rw [List.countP_cons]
    by_cases hp : p ∈ r
    · have hnone : rs.countP (fun s => decide (p ∈ s)) = 0 := by
        rw [List.countP_eq_zero]
        intro s hs
        simp only [decide_eq_true_eq]
        exact fun hps => (List.pairwise_cons.mp hpw).1 s hs p hp hps
      simp [hnone, hp]
    · have hex' : ∃ s ∈ rs, p ∈ s := by
        obtain ⟨s, hs, hps⟩ := hex
        rcases List.mem_cons.mp hs with rfl | hs'
        · exact absurd hps hp
        · exact ⟨s, hs', hps⟩
      rw [ih p (List.pairwise_cons.mp hpw).2 hex']
      simp [hp]

theorem stepFold_mono (img : Img) (p : Pt) :
    ∀ (ds : List Pt) (s : List Pt × Finset Pt), s.2 ⊆ (stepFold img p ds s).2 := by
  intro ds
  induction ds with
  | nil =>
    intro s
    simp only [stepFold]
    exact Finset.Subset.refl _
  | cons d ds ih =>
    intro s
    simp only [stepFold]
    split_ifs with hc
    · exact subset_trans (Finset.subset_insert _ _)
        (ih (s.1 ++ [(p.1 + d.1, p.2 + d.2)], insert (p.1 + d.1, p.2 + d.2) s.2))
    · exact ih s

theorem floodLoop_mono (img : Img) :
    ∀ (fuel : ℕ) (q : List Pt) (v : Finset Pt) (px : List Pt),
    v ⊆ (floodLoop img fuel q v px).2 := by
  intro fuel
  induction fuel with
  | zero =>
    intro q v px
    simp only [floodLoop]
    exact Finset.Subset.refl v
  | succ fuel ih =>
    intro q v px
    cases q with
    | nil =>
      simp only [floodLoop]
      exact Finset.Subset.refl v
    | cons p rest =>
      simp only [floodLoop]
      exact subset_trans (stepFold_mono img p offsets (rest, v)) (ih _ _ _)

theorem scanLoop_mono (img : Img) :
    ∀ (cs : List Pt) (v : Finset Pt) (rs : List (List Pt)),
    v ⊆ (scanLoop img cs v rs).1 := by
  intro cs
  induction cs with
  | nil =>
    intro v rs
    simp only [scanLoop]
    exact Finset.Subset.refl v
  | cons c cs ih =>
    intro v rs
    simp only [scanLoop]
    split_ifs with hc
    · refine subset_trans ?_ (ih _ _)
      rw [floodFill]
      exact subset_trans (Finset.subset_insert c v) (floodLoop_mono img _ _ _ _)
    · exact ih v rs

/-- C6: extraction partitions the foreground.  Every region is
duplicate-free, the regions are pairwise disjoint, a pixel is foreground iff
it lies in some extracted region — in exactly one, counting with
multiplicity — the region sizes (small discarded regions included) sum
to the number of foreground pixels, and the visited set only ever grows
during the scan (no pixel is ever reset). -/
theorem flood_partition (img : Img) :
    (∀ r ∈ extractRegions img, r.Nodup) ∧
    (extractRegions img).Pairwise (fun a b => ∀ p ∈ a, p ∉ b) ∧
    (∀ p : Pt, p ∈ fgFinset img ↔ ∃ r ∈ extractRegions img, p ∈ r) ∧
    (∀ p : Pt, p ∈ fgFinset img →
      (extractRegions img).countP (fun r => decide (p ∈ r)) = 1) ∧
    ((extractRegions img).map List.length).sum = (fgFinset img).card ∧
    (∀ (cs : List Pt) (v : Finset Pt) (rs : List (List Pt)),
      v ⊆ (scanLoop img cs v rs).1) := by
  obtain ⟨h1, h2, h3, h4⟩ := extract_invariant img
  have hiff : ∀ p : Pt, p ∈ fgFinset img ↔ ∃ r ∈ extractRegions img, p ∈ r := by
    intro p
    rw [← h4, mem_unionOf]
  refine ⟨h1, h3, hiff, ?_, ?_, fun cs v rs => scanLoop_mono img cs v rs⟩
  · intro p hp
    exact countP_eq_one_of_pairwise_disjoint _ p h3 ((hiff p).mp hp)
  · rw [sum_lengths_of_partition _ h1 h3, h4]

/-! ## Binarizer, classifier and determinism -/

/-- C5: a pixel is marked foreground iff its red, green or blue byte is
below 240; the alpha byte is ignored — any image agreeing on all non-alpha
bytes (and in width, which fixes the pixel addressing) binarizes
identically. -/
theorem binarizer_spec (img : Img) (p : Pt) :
    (fgB img p = true ↔
      img.data (pixIndex img p) < 240 ∨ img.data (pixIndex img p + 1) < 240 ∨
        img.data (pixIndex img p + 2) < 240) ∧
    (∀ img' : Img, img'.width = img.width →
      (∀ j, j % 4 ≠ 3 → img'.data j = img.data j) → fgB img' p = fgB img p) := by
  constructor
  · simp [fgB, Bool.or_eq_true, decide_eq_true_eq, or_assoc]
  · intro img' hw hdata
    have hidx : pixIndex img' p = pixIndex img p := by
      simp [pixIndex, hw]
    have h0 : pixIndex img p % 4 = 0 := Nat.mul_mod_left _ 4
    have e0 : img'.data (pixIndex img' p) = img.data (pixIndex img p) := by
      rw [hidx]
      exact hdata _ (by omega)
    have e1 : img'.data (pixIndex img' p + 1) = img.data (pixIndex img p + 1) := by
      rw [hidx]
      exact hdata _ (by omega)
    have e2 : img'.data (pixIndex img' p + 2) = img.data (pixIndex img p + 2) := by
      rw [hidx]
      exact hdata _ (by omega)
    simp only [fgB, e0, e1, e2]

/-- C2: the classification chain's boundary behaviour.  The circle guard is
strict, so circularity exactly 0.85 never yields circle; and with extent
exactly 0.6 (and circularity at most 0.85, and the square guard failing) the
rectangle guard `extent > 0.6` and the triangle guard `extent < 0.6` both
fail, so the chain falls through to pentagon with pre-penalty confidence
0.6. -/
theorem classify_boundaries (circ ar ext : ℝ) :
    (circ = 0.85 → (classify circ ar ext).1 ≠ ShapeType.circle) ∧
    (circ ≤ 0.85 → ext = 0.6 → ¬(|ar - 1| < 0.2 ∧ 0.7 < ext) →
      classify circ ar ext = (ShapeType.pentagon, 0.6)) := by
  constructor
  · intro h
    subst h
    unfold classify
    rw [if_neg (lt_irrefl (0.85 : ℝ))]
    split_ifs <;> simp
  · intro h1 h2 h3
    subst h2
    unfold classify
    rw [if_neg (not_lt.mpr h1), if_neg h3, if_neg (by norm_num), if_neg (by norm_num)]

/-- C9: the result of `detectShapes` depends only on the pixel buffer — the
method overwrites every mutable field it reads before reading it — so a
second run from the state the first run left behind returns the same
result. -/
theorem detect_deterministic (s₁ s₂ : DetectorState) (img : Img) :
    (detectShapesM s₁ img).2 = (detectShapesM s₂ img).2 ∧
    (detectShapesM (detectShapesM s₁ img).1 img).2 = (detectShapesM s₁ img).2 :=
  ⟨rfl, rfl⟩

/-! ## Feature formulas -/

theorem listSum_range_eq (n : ℕ) (f : ℕ → ℝ) :
    ((List.range n).map f).sum = ∑ i ∈ Finset.range n, f i := by
  induction n with
  | zero => simp
  | succ n ih =>
    rw [List.range_succ, List.map_append, List.sum_append, Finset.sum_range_succ, ih]
    simp

/-- C7: the perimeter estimate is the sum of Euclidean distances between
consecutive pixels in discovery order, wrapping from the last pixel back to
the first, and circularity is `4π·area/perimeter²` for positive perimeter
and 0 otherwise. -/
theorem perimeter_circularity_spec (px : List Pt) :
    perimeter px = perimeterSpec px ∧ circularity px = circularitySpec px := by
  have h : perimeter px = perimeterSpec px := listSum_range_eq _ _
  refine ⟨h, ?_⟩
  simp only [circularity, circularitySpec, h, pow_two]

/-! ## The perimeter heuristic's lower bound

Consecutive pixels in the discovery order are distinct lattice points, so
each of the `n` summed distances is at least 1 and the "perimeter" is at
least the pixel count.  Hence circularity is at most `4π/n`: the circle
branch can never fire for a region of 15 or more distinct pixels. -/

theorem pixDist_nonneg (p q : Pt) : 0 ≤ pixDist p q := Real.sqrt_nonneg _

theorem one_le_pixDist {p q : Pt} (h : p ≠ q) : 1 ≤ pixDist p q := by
  have hint : 1 ≤ (q.1 - p.1) * (q.1 - p.1) + (q.2 - p.2) * (q.2 - p.2) := by
    have hne : q.1 - p.1 ≠ 0 ∨ q.2 - p.2 ≠ 0 := by
      by_contra hcon
      push_neg at hcon
      exact h (Prod.ext (by omega) (by omega)).symm
    have h1 : 0 ≤ (q.1 - p.1) * (q.1 - p.1) := mul_self_nonneg _
    have h2 : 0 ≤ (q.2 - p.2) * (q.2 - p.2) := mul_self_nonneg _
    rcases hne with hne | hne
    · have := mul_self_pos.mpr hne
      omega
    · have := mul_self_pos.mpr hne
      omega
  have hreal : (1 : ℝ) ≤ ((q.1 - p.1 : ℤ) : ℝ) * ((q.1 - p.1 : ℤ) : ℝ) +
      ((q.2 - p.2 : ℤ) : ℝ) * ((q.2 - p.2 : ℤ) : ℝ) := by
    exact_mod_cast hint
  calc (1 : ℝ) = Real.sqrt 1 := (Real.sqrt_one).symm
    _ ≤ pixDist p q := Real.sqrt_le_sqrt hreal

theorem sum_range_ge (n : ℕ) (f : ℕ → ℝ) (h : ∀ i < n, 1 ≤ f i) :
    (n : ℝ) ≤ ((List.range n).map f).sum := by
  rw [listSum_range_eq]
  have := Finset.card_nsmul_le_sum (Finset.range n) f 1
    (fun i hi => h i (Finset.mem_range.mp hi))
  simpa using this

theorem length_le_perimeter (px : List Pt) (hnd : px.Nodup) (h2 : 2 ≤ px.length) :
    (px.length : ℝ) ≤ perimeter px := by
  rw [perimeter]
  apply sum_range_ge
  intro i hi
  apply one_le_pixDist
  have hn0 : 0 < px.length := by omega
  have hj : (i + 1) % px.length < px.length := Nat.mod_lt _ hn0
  have hij : i ≠ (i + 1) % px.length := by
    rcases Nat.lt_or_ge (i + 1) px.length with hlt | hge
    · rw [Nat.mod_eq_of_lt hlt]
      omega
    · have : i + 1 = px.length := by omega
      rw [this, Nat.mod_self]
      omega
  rw [List.getD_eq_getElem _ _ hi, List.getD_eq_getElem _ _ hj]
  intro hcon
  exact hij ((List.Nodup.getElem_inj_iff hnd).mp hcon)

theorem circularity_lt_of_nodup (px : List Pt) (hnd : px.Nodup)
    (hlen : 15 ≤ px.length) : circularity px < 0.85 := by
  have hP : (px.length : ℝ) ≤ perimeter px := length_le_perimeter px hnd (by omega)
  have hn : (15 : ℝ) ≤ (px.length : ℝ) := by exact_mod_cast hlen
  have hnpos : (0 : ℝ) < (px.length : ℝ) := by linarith
  have hPpos : 0 < perimeter px := by linarith
  rw [circularity, if_pos hPpos]
  have hpi : Real.pi < 3.15 := Real.pi_lt_d2
  have hpipos : 0 < Real.pi := Real.pi_pos
  calc 4 * Real.pi * (px.length : ℝ) / (perimeter px * perimeter px)
      ≤ 4 * Real.pi * (px.length : ℝ) / ((px.length : ℝ) * (px.length : ℝ)) := by
        gcongr
    _ = 4 * Real.pi / (px.length : ℝ) := by
        field_simp
        ring
    _ ≤ 4 * Real.pi / 15 := by gcongr
    _ < 0.85 := by
        rw [div_lt_iff₀ (by norm_num)]
        nlinarith

theorem classify_ne_circle {circ ar ext : ℝ} (h : circ < 0.85) :
    (classify circ ar ext).1 ≠ ShapeType.circle := by
  unfold classify
  rw [if_neg (by linarith)]
  split_ifs <;> simp

theorem analyze_ne_circle (img : Img) (px : List Pt) (hnd : px.Nodup)
    (hlen : 15 ≤ px.length) (s : DetectedShape) (hs : analyzeShape img px = some s) :
    s.type ≠ ShapeType.circle := by
  unfold analyzeShape at hs
  split_ifs at hs
  have : s = { type := (classifyOf img px).1
               confidence := clampedConf img px
               boundingBox := { x := minXF img px, y := minYF img px,
                                width := bbW img px, height := bbH img px }
               center := { x := (sumXF px : ℝ) / px.length,
                           y := (sumYF px : ℝ) / px.length }
               area := px.length } := (Option.some.injEq _ _ ▸ hs).symm
  rw [this]
  exact classify_ne_circle (circularity_lt_of_nodup px hnd hlen)

/-- Every shape the pipeline emits comes from an analyzed region: a
duplicate-free extracted region of more than 20 pixels. -/
theorem shapes_from_regions (img : Img) (s : DetectedShape)
    (hs : s ∈ (detectShapes img).shapes) :
    ∃ px ∈ analyzedRegions img, px ∈ extractRegions img ∧ px.Nodup ∧
      minShapeSize < px.length ∧ analyzeShape img px = some s := by
  obtain ⟨px, hmem, hsome⟩ := List.mem_filterMap.mp hs
  obtain ⟨hex, hlen⟩ := List.mem_filter.mp hmem
  have hnd : px.Nodup := (extract_invariant img).1 px hex
  exact ⟨px, hmem, hex, hnd, by simpa using hlen, hsome⟩

theorem no_circle_ever (img : Img) (s : DetectedShape)
    (hs : s ∈ (detectShapes img).shapes) : s.type ≠ ShapeType.circle := by
  obtain ⟨px, _, _, hnd, hlen, hsome⟩ := shapes_from_regions img s hs
  exact analyze_ne_circle img px hnd (by simp [minShapeSize] at hlen; omega) s hsome

/-- C1 (the code against the spec's scenario): on the 200×200 disk image —
indeed on any image — no emitted shape is ever classified `circle`, because
the discovery-order perimeter of an analyzed region (more than 20 distinct
pixels) is at least the pixel count, driving circularity below 4π/20 <
0.85.  The scenario's expected `circle` with confidence ≥ 0.85 cannot
occur. -/
theorem disk_scenario_no_circle :
    ((detectShapes diskImg).shapes.all fun s => decide (s.type ≠ ShapeType.circle)) = true := by
  rw [List.all_eq_true]
  intro s hs
  exact decide_eq_true (no_circle_ever diskImg s hs)

/-- Unpacking a successful `analyzeShape`: both early returns were skipped
and the result is the feature record. -/
theorem analyzeShape_eq_some (img : Img) (px : List Pt) (s : DetectedShape)
    (hs : analyzeShape img px = some s) :
    s = { type := (classifyOf img px).1
          confidence := clampedConf img px
          boundingBox := { x := minXF img px, y := minYF img px,
                           width := bbW img px, height := bbH img px }
          center := { x := (sumXF px : ℝ) / px.length,
                      y := (sumYF px : ℝ) / px.length }
          area := px.length } ∧
    ¬px.length < 10 ∧ ¬clampedConf img px < 0.6 := by
  unfold analyzeShape at hs
  split_ifs at hs with h1 h2
  exact ⟨(Option.some.injEq _ _ ▸ hs).symm, h1, h2⟩

/-- C3: every emitted shape's confidence lies in [0.6, 0.99]: the clamp
`max 0.1 (min 0.99 ·)` caps it at 0.99, and a region whose clamped
confidence falls below 0.6 is dropped (analyzeShape returns `none`, no
error), so no emitted shape undercuts the floor. -/
theorem confidence_bounds (img : Img) (s : DetectedShape)
    (hs : s ∈ (detectShapes img).shapes) :
    (0.6 ≤ s.confidence ∧ s.confidence ≤ 0.99) ∧
    (∀ px : List Pt, ¬px.length < 10 → clampedConf img px < 0.6 →
      analyzeShape img px = none) := by
  obtain ⟨px, _, _, _, _, hsome⟩ := shapes_from_regions img s hs
  obtain ⟨hrec, _, hcut⟩ := analyzeShape_eq_some img px s hsome
  constructor
  · rw [hrec]
    constructor
    · exact not_lt.mp hcut
    · show clampedConf img px ≤ 0.99
      unfold clampedConf
      exact max_le (by norm_num) (min_le_left _ _)
  · intro r h10 hlow
    unfold analyzeShape
    rw [if_neg h10, if_pos hlow]

/-- C10: every region passed to `analyzeShape` has strictly more than 20
pixels, so the `pixels.length < 10` early return never fires, and a `null`
result can only come from the confidence cutoff. -/
theorem degenerate_return_unreachable (img : Img) (px : List Pt)
    (h : px ∈ analyzedRegions img) :
    minShapeSize < px.length ∧ ¬px.length < 10 ∧
    (analyzeShape img px = none → clampedConf img px < 0.6) := by
  have hlen : minShapeSize < px.length := by
    have := (List.mem_filter.mp h).2
    simpa using this
  have h10 : ¬px.length < 10 := by
    simp only [minShapeSize] at hlen
    omega
  refine ⟨hlen, h10, ?_⟩
  intro hnone
  unfold analyzeShape at hnone
  rw [if_neg h10] at hnone
  by_contra hcon
  rw [if_neg hcon] at hnone
  exact Option.noConfusion hnone

/-- C4 (amended): the size filter is strict — a region is handed to the
feature calculator iff it has strictly more than 20 pixels, so a region of
exactly 20 pixels is discarded. -/
theorem size_filter_strict (img : Img) (px : List Pt)
    (h : px ∈ extractRegions img) :
    px ∈ analyzedRegions img ↔ 20 < px.length := by
  constructor
  · intro h2
    have := (List.mem_filter.mp h2).2
    simpa [minShapeSize] using this
  · intro h2
    exact List.mem_filter.mpr ⟨h, by simpa [minShapeSize] using h2⟩

/-! ## Fold lemmas for the bounding box and centroid -/

theorem foldl_min_le_init : ∀ (l : List ℤ) (i : ℤ), l.foldl min i ≤ i
  | [], i => le_refl i
  | b :: l, i => le_trans (foldl_min_le_init l (min i b)) (min_le_left i b)

theorem foldl_min_le_of_mem : ∀ (l : List ℤ) (i a : ℤ), a ∈ l → l.foldl min i ≤ a := by
  intro l
  induction l with
  | nil =>
    intro i a ha
    cases ha
  | cons b l ih =>
    intro i a ha
    rcases List.mem_cons.mp ha with rfl | ha'
    · exact le_trans (foldl_min_le_init l (min i a)) (min_le_right i a)
    · exact ih (min i b) a ha'

theorem foldl_min_eq_or_mem : ∀ (l : List ℤ) (i : ℤ),
    l.foldl min i = i ∨ l.foldl min i ∈ l := by
  intro l
  induction l with
  | nil =>
    intro i
    exact Or.inl rfl
  | cons b l ih =>
    intro i
    rcases ih (min i b) with h | h
    · rcases min_choice i b with hm | hm
      · exact Or.inl (by rw [List.foldl_cons, h, hm])
      · refine Or.inr ?_
        rw [List.foldl_cons, h, hm]
        exact List.mem_cons_self b l
    · refine Or.inr ?_
      rw [List.foldl_cons]
      exact List.mem_cons_of_mem b h

theorem init_le_foldl_max : ∀ (l : List ℤ) (i : ℤ), i ≤ l.foldl max i
  | [], i => le_refl i
  | b :: l, i => le_trans (le_max_left i b) (init_le_foldl_max l (max i b))

theorem le_foldl_max_of_mem : ∀ (l : List ℤ) (i a : ℤ), a ∈ l → a ≤ l.foldl max i := by
  intro l
  induction l with
  | nil =>
    intro i a ha
    cases ha
  | cons b l ih =>
    intro i a ha
    rcases List.mem_cons.mp ha with rfl | ha'
    · exact le_trans (le_max_right i a) (init_le_foldl_max l (max i a))
    · exact ih (max i b) a ha'

theorem foldl_max_eq_or_mem : ∀ (l : List ℤ) (i : ℤ),
    l.foldl max i = i ∨ l.foldl max i ∈ l := by
  intro l
  induction l with
  | nil =>
    intro i
    exact Or.inl rfl
  | cons b l ih =>
    intro i
    rcases ih (max i b) with h | h
    · rcases max_choice i b with hm | hm
      · exact Or.inl (by rw [List.foldl_cons, h, hm])
      · refine Or.inr ?_
        rw [List.foldl_cons, h, hm]
        exact List.mem_cons_self b l
    · refine Or.inr ?_
      rw [List.foldl_cons]
      exact List.mem_cons_of_mem b h

theorem foldl_add_eq_sum (f : Pt → ℤ) :
    ∀ (l : List Pt) (a : ℤ), l.foldl (fun acc p => acc + f p) a = a + (l.map f).sum := by
  intro l
  induction l with
  | nil =>
    intro a
    simp
  | cons b l ih =>
    intro a
    rw [List.foldl_cons, ih (a + f b), List.map_cons, List.sum_cons]
    ring

/-- C8: for every region handed to the feature calculator, the sums feeding
the centroid are the sums of all pixel coordinates (so the centre is their
arithmetic mean, not the bounding-box centre), and the bounding-box folds
compute the true min/max over all pixels (every coordinate lies between
them and both are attained), with width = maxX − minX + 1 and
height = maxY − minY + 1. -/
theorem centroid_bbox_spec (img : Img) (px : List Pt)
    (h : px ∈ analyzedRegions img) :
    sumXF px = (px.map Prod.fst).sum ∧
    sumYF px = (px.map Prod.snd).sum ∧
    (∀ p ∈ px, minXF img px ≤ p.1 ∧ p.1 ≤ maxXF px ∧
      minYF img px ≤ p.2 ∧ p.2 ≤ maxYF px) ∧
    minXF img px ∈ px.map Prod.fst ∧
    maxXF px ∈ px.map Prod.fst ∧
    minYF img px ∈ px.map Prod.snd ∧
    maxYF px ∈ px.map Prod.snd ∧
    bbW img px = maxXF px - minXF img px + 1 ∧
    bbH img px = maxYF px - minYF img px + 1 := by
  obtain ⟨hex, hlenb⟩ := List.mem_filter.mp h
  have hlen : 0 < px.length := by
    have := hlenb
    simp only [decide_eq_true_eq, minShapeSize] at this
    omega
  obtain ⟨p₀, hp₀⟩ : ∃ a, a ∈ px := List.exists_mem_of_length_pos hlen
  have hgp : ∀ p ∈ px, p ∈ grid img ∧ fgB img p = true :=
    (extract_invariant img).2.1 px hex
  have hinb : ∀ p ∈ px, 0 ≤ p.1 ∧ p.1 < (img.width : ℤ) ∧
      0 ≤ p.2 ∧ p.2 < (img.height : ℤ) :=
    fun p hp => mem_grid.mp (hgp p hp).1
  have hminx : minXF img px = (px.map Prod.fst).foldl min (img.width : ℤ) :=
    (List.foldl_map _ _ _ _).symm
  have hminy : minYF img px = (px.map Prod.snd).foldl min (img.height : ℤ) :=
    (List.foldl_map _ _ _ _).symm
  have hmaxx : maxXF px = (px.map Prod.fst).foldl max 0 :=
    (List.foldl_map _ _ _ _).symm
  have hmaxy : maxYF px = (px.map Prod.snd).foldl max 0 :=
    (List.foldl_map _ _ _ _).symm
  refine ⟨?_, ?_, ?_, ?_, ?_, ?_, ?_, rfl, rfl⟩
  · rw [sumXF, foldl_add_eq_sum Prod.fst px 0, zero_add]
  · rw [sumYF, foldl_add_eq_sum Prod.snd px 0, zero_add]
  · intro p hp
    refine ⟨?_, ?_, ?_, ?_⟩
    · rw [hminx]
      exact foldl_min_le_of_mem _ _ _ (List.mem_map_of_mem Prod.fst hp)
    · rw [hmaxx]
      exact le_foldl_max_of_mem _ _ _ (List.mem_map_of_mem Prod.fst hp)
    · rw [hminy]
      exact foldl_min_le_of_mem _ _ _ (List.mem_map_of_mem Prod.snd hp)
    · rw [hmaxy]
      exact le_foldl_max_of_mem _ _ _ (List.mem_map_of_mem Prod.snd hp)
  · rw [hminx]
    rcases foldl_min_eq_or_mem (px.map Prod.fst) (img.width : ℤ) with heq | hmem
    · exfalso
      have h1 : (px.map Prod.fst).foldl min (img.width : ℤ) ≤ p₀.1 :=
        foldl_min_le_of_mem _ _ _ (List.mem_map_of_mem Prod.fst hp₀)
      have h2 : p₀.1 < (img.width : ℤ) := (hinb p₀ hp₀).2.1
      omega
    · exact hmem
  · rw [hmaxx]
    rcases foldl_max_eq_or_mem (px.map Prod.fst) 0 with heq | hmem
    · have h1 : p₀.1 ≤ (px.map Prod.fst).foldl max 0 :=
        le_foldl_max_of_mem _ _ _ (List.mem_map_of_mem Prod.fst hp₀)
      have h2 : 0 ≤ p₀.1 := (hinb p₀ hp₀).1
      have h3 : p₀.1 = (px.map Prod.fst).foldl max 0 := by omega
      rw [← h3]
      exact List.mem_map_of_mem Prod.fst hp₀
    · exact hmem
  · rw [hminy]
    rcases foldl_min_eq_or_mem (px.map Prod.snd) (img.height : ℤ) with heq | hmem
    · exfalso
      have h1 : (px.map Prod.snd).foldl min (img.height : ℤ) ≤ p₀.2 :=
        foldl_min_le_of_mem _ _ _ (List.mem_map_of_mem Prod.snd hp₀)
      have h2 : p₀.2 < (img.height : ℤ) := (hinb p₀ hp₀).2.2.2
      omega
    · exact hmem
  · rw [hmaxy]
    rcases foldl_max_eq_or_mem (px.map Prod.snd) 0 with heq | hmem
    · have h1 : p₀.2 ≤ (px.map Prod.snd).foldl max 0 :=
        le_foldl_max_of_mem _ _ _ (List.mem_map_of_mem Prod.snd hp₀)
      have h2 : 0 ≤ p₀.2 := (hinb p₀ hp₀).2.2.1
      have h3 : p₀.2 = (px.map Prod.snd).foldl max 0 := by omega
      rw [← h3]
      exact List.mem_map_of_mem Prod.snd hp₀
    · exact hmem

/-! ## The 10×10 all-black image: a concrete run of the pipeline -/

theorem extract10 : extractRegions img10 = [reg10] := by decide

theorem reg10_facts :
    reg10.length = 100 ∧ reg10.Nodup ∧
    minXF img10 reg10 = 0 ∧ maxXF reg10 = 9 ∧
    minYF img10 reg10 = 0 ∧ maxYF reg10 = 9 ∧
    sumXF reg10 = 450 ∧ sumYF reg10 = 450 := by
  refine ⟨by decide, by decide, by decide, by decide, by decide, by decide,
    by decide, by decide⟩

theorem reg10_mem_extract : reg10 ∈ extractRegions img10 := by
  rw [extract10]
  exact List.mem_singleton.mpr rfl

theorem reg10_mem_analyzed : reg10 ∈ analyzedRegions img10 :=
  List.mem_filter.mpr ⟨reg10_mem_extract, by decide⟩

theorem bb10 : bbW img10 reg10 = 10 ∧ bbH img10 reg10 = 10 := by
  obtain ⟨-, -, h1, h2, h3, h4, -, -⟩ := reg10_facts
  rw [bbW, bbH, h1, h2, h3, h4]
  norm_num

theorem aspect10 : aspectRatio img10 reg10 = 1 := by
  rw [aspectRatio, bb10.1, bb10.2]
  rw [show ((10 : ℤ) : ℝ) = 10 by norm_num, max_eq_right (by norm_num : (1 : ℝ) ≤ 10)]
  norm_num

theorem extent10 : extent img10 reg10 = 1 := by
  rw [extent, bb10.1, bb10.2, reg10_facts.1]
  norm_num

theorem classify10 : classifyOf img10 reg10 = (ShapeType.square, 0.85 * 1) := by
  have hc : circularity reg10 < 0.85 :=
    circularity_lt_of_nodup reg10 reg10_facts.2.1 (by rw [reg10_facts.1]; norm_num)
  rw [classifyOf, aspect10, extent10]
  unfold classify
  rw [if_neg (not_lt.mpr (le_of_lt hc)), if_pos (by norm_num)]

theorem penalty10 : sizePenalty 100 = 0.8 := by
  rw [sizePenalty]
  rw [show ((100 : ℕ) : ℝ) / 100 = 1 by norm_num, Real.logb_one]
  norm_num

theorem conf10 : clampedConf img10 reg10 = 0.68 := by
  rw [clampedConf, classify10, reg10_facts.1, penalty10]
  rw [show (ShapeType.square, (0.85 : ℝ) * 1).2 * 0.8 = 0.68 by norm_num]
  rw [min_eq_right (by norm_num : (0.68 : ℝ) ≤ 0.99),
    max_eq_right (by norm_num : (0.1 : ℝ) ≤ 0.68)]

theorem analyze10 : analyzeShape img10 reg10 = some wShape := by
  rw [analyzeShape]
  rw [if_neg (by rw [reg10_facts.1]; norm_num), if_neg (by rw [conf10]; norm_num)]
  obtain ⟨hL, -, h1, h2, h3, h4, h5, h6⟩ := reg10_facts
  rw [wShape, classify10, conf10, h1, h3, bb10.1, bb10.2, h5, h6, hL]
  norm_num

theorem wShape_mem : wShape ∈ (detectShapes img10).shapes :=
  List.mem_filterMap.mpr ⟨reg10, reg10_mem_analyzed, analyze10⟩

/-! ## The 10×2 all-black image: a region of exactly 20 pixels -/

/-- C4's counterexample: `img20` has exactly one extracted region, of
exactly 20 pixels, and it is NOT handed to the feature calculator — the
filter `length > 20` discards it, refuting "every region with at least 20
pixels is handed to the feature calculator". -/
theorem size_filter_counterexample :
    (extractRegions img20).map List.length = [20] ∧ analyzedRegions img20 = [] := by
  refine ⟨by decide, by decide⟩

/-! ## Witnesses: the theorems with hypotheses, at a concrete input -/

theorem confidence_bounds_witness :
    (0.6 ≤ wShape.confidence ∧ wShape.confidence ≤ 0.99) ∧
    (∀ px : List Pt, ¬px.length < 10 → clampedConf img10 px < 0.6 →
      analyzeShape img10 px = none) :=
  confidence_bounds img10 wShape wShape_mem

theorem size_filter_strict_witness :
    reg10 ∈ analyzedRegions img10 ↔ 20 < reg10.length :=
  size_filter_strict img10 reg10 reg10_mem_extract

theorem degenerate_return_unreachable_witness :
    minShapeSize < reg10.length ∧ ¬reg10.length < 10 ∧
    (analyzeShape img10 reg10 = none → clampedConf img10 reg10 < 0.6) :=
  degenerate_return_unreachable img10 reg10 reg10_mem_analyzed

theorem centroid_bbox_spec_witness :
    sumXF reg10 = (reg10.map Prod.fst).sum ∧
    sumYF reg10 = (reg10.map Prod.snd).sum ∧
    (∀ p ∈ reg10, minXF img10 reg10 ≤ p.1 ∧ p.1 ≤ maxXF reg10 ∧
      minYF img10 reg10 ≤ p.2 ∧ p.2 ≤ maxYF reg10) ∧
    minXF img10 reg10 ∈ reg10.map Prod.fst ∧
    maxXF reg10 ∈ reg10.map Prod.fst ∧
    minYF img10 reg10 ∈ reg10.map Prod.snd ∧
    maxYF reg10 ∈ reg10.map Prod.snd ∧
    bbW img10 reg10 = maxXF reg10 - minXF img10 reg10 + 1 ∧
    bbH img10 reg10 = maxYF reg10 - minYF img10 reg10 + 1 :=
  centroid_bbox_spec img10 reg10 reg10_mem_analyzed

end ShapeDetect
